import Mathlib

/-!
Verification of the red-black tree core of the `rb_tree` repository.

The definitions below are a shallow embedding of `src/node.rs` and
`src/rbtree.rs`: the imperative Rust code (which mutates nodes in place
through `std::mem::swap`) is translated into pure functions that return the
new tree.  Places where the Rust code can `panic!` (the `child`/`innards`/
`gut` accessors invoked on a `Leaf`, the `Double black at local root` arm of
`deletion_switcheroo`, and the `tree structure damaged` arm of the top level
`remove`/`pop`) are modelled by returning `none`.  The recursion of
`deletion_switcheroo` is not structurally decreasing in the tree (it first
recurses into a child of the rotated tree and may then restart on the
rebuilt tree), so it takes an explicit fuel argument; the public wrappers
supply `size + 2` fuel, which is ample for every execution exercised here
(the fuel is only consumed by `deletion_switcheroo`'s own recursion).
-/

namespace RB

/-- Colour of a node: `Red`, `Black` or the transient `DBlack`
(mirrors `enum Colour` in node.rs). -/
inductive Colour where
  | Red
  | Black
  | DBlack
deriving DecidableEq, Repr

/-- A node of the red-black tree: an `Internal` node carrying a value, a
colour and two children, or a `Leaf` sentinel carrying only a colour
(mirrors `enum Node` / `struct Innards` in node.rs). -/
inductive Node (α : Type) where
  | Internal (value : α) (colour : Colour) (l_child : Node α) (r_child : Node α)
  | Leaf (colour : Colour)
deriving DecidableEq, Repr

/-- Result signal of the recursive insertion (mirrors `enum Insertion`). -/
inductive Insertion (α : Type) where
  | InvalidLeft
  | InvalidRight
  | Recoloured
  | Inserted
  | Replaced (v : α)
  | Success
deriving DecidableEq, Repr

/-- Result signal of the recursive removal (mirrors `enum Removal`). -/
inductive Removal (α : Type) where
  | Removed (v : α)
  | Doubled (v : α)
  | Match
  | NotFound
deriving DecidableEq, Repr

namespace Node

variable {α : Type} {κ : Type}

/-- `Node::is_black` (a `DBlack` node is not black). -/
def is_black : Node α → Bool
  | Internal _ c _ _ => c = Colour.Black
  | Leaf c => c = Colour.Black

/-- `Node::is_red` is literally `!is_black` in the source, so a `DBlack`
node also counts as "red" here. -/
def is_red (t : Node α) : Bool := !t.is_black

/-- `Node::is_double_black`. -/
def is_double_black : Node α → Bool
  | Internal _ c _ _ => c = Colour.DBlack
  | Leaf c => c = Colour.DBlack

/-- `Node::is_leaf`. -/
def is_leaf : Node α → Bool
  | Internal _ _ _ _ => false
  | Leaf _ => true

/-- `Node::colour`. -/
def colour : Node α → Colour
  | Internal _ c _ _ => c
  | Leaf c => c

/-- `Node::value`. -/
def value? : Node α → Option α
  | Internal v _ _ _ => some v
  | Leaf _ => none

/-- `Innards::swap_colour`: `Red ↦ Black`, `Black ↦ Red`, `DBlack ↦ Black`. -/
def colourSwap : Colour → Colour
  | Colour.Red => Colour.Black
  | Colour.Black => Colour.Red
  | Colour.DBlack => Colour.Black

/-- `Node::swap_colour`: recolours internal nodes only; a leaf is left
unchanged (the source comments "leaves always black" but does not touch the
leaf's stored colour). -/
def swapColour : Node α → Node α
  | Internal v c l r => Internal v (colourSwap c) l r
  | Leaf c => Leaf c

/-- the private `Node::black()` setter: total, recolours leaves too. -/
def setBlack : Node α → Node α
  | Internal v _ l r => Internal v Colour.Black l r
  | Leaf _ => Leaf Colour.Black

/-- the private `Node::red()` setter. -/
def setRed : Node α → Node α
  | Internal v _ l r => Internal v Colour.Red l r
  | Leaf _ => Leaf Colour.Red

/-- the private `Node::double_black()` setter. -/
def setDBlack : Node α → Node α
  | Internal v _ l r => Internal v Colour.DBlack l r
  | Leaf _ => Leaf Colour.DBlack

/-- `Node::new`: freshly inserted values are red with black leaf children. -/
def new (v : α) : Node α :=
  Internal v Colour.Red (Leaf Colour.Black) (Leaf Colour.Black)

/-- Number of internal nodes of a subtree. -/
def size : Node α → Nat
  | Internal _ _ l r => l.size + r.size + 1
  | Leaf _ => 0

/-- In-order traversal, as produced by `ordered_insertion` in helpers.rs. -/
def inorder : Node α → List α
  | Internal v _ l r => inorder l ++ v :: inorder r
  | Leaf _ => []

/-- The value-erased shape of a tree: colours and structure only. -/
def paint : Node α → Node Unit
  | Internal _ c l r => Internal () c (paint l) (paint r)
  | Leaf c => Leaf c

/-- `Node::inner_switcheroo(right)`: the double rotation.  For `right = true`
it requires the shape `P(A, C(G(g1, g2), D))` and produces
`G(P(A, g1), C(g2, D))`; colours travel with their nodes.  `none` models the
panics of the `child` accessor on a leaf. -/
def innerSwitcheroo : Node α → Bool → Option (Node α)
  | Internal pv pc pl (Internal cv cc (Internal gv gc g1 g2) cd), true =>
      some (Internal gv gc (Internal pv pc pl g1) (Internal cv cc g2 cd))
  | Internal pv pc (Internal cv cc cl (Internal gv gc g1 g2)) pr, false =>
      some (Internal gv gc (Internal cv cc cl g1) (Internal pv pc g2 pr))
  | _, _ => none

/-- `Node::outer_switcheroo(right)`: the single rotation.  For `right = true`
it turns `P(A, C(CL, CR))` into `C(P(A, CL), CR)`. -/
def outerSwitcheroo : Node α → Bool → Option (Node α)
  | Internal pv pc pl (Internal cv cc cl cr), true =>
      some (Internal cv cc (Internal pv pc pl cl) cr)
  | Internal pv pc (Internal cv cc cl cr) pr, false =>
      some (Internal cv cc cl (Internal pv pc cr pr))
  | _, _ => none

/-- After a rotation in `insert_switcheroo` the source runs
`self.swap_colour(); self.child(!right).swap_colour();`. -/
def postSwap : Node α → Bool → Node α
  | Internal v c l r, true => Internal v (colourSwap c) l.swapColour r
  | Internal v c l r, false => Internal v (colourSwap c) l r.swapColour
  | Leaf c, _ => Leaf c

/-- `Node::insert_switcheroo(right, inner, recolour)`. -/
def insert_switcheroo (t : Node α) (right inner recolour : Bool) :
    Option (Insertion α × Node α) :=
  if recolour then
    match t with
    | Internal v c l r =>
        some (Insertion.Recoloured,
          Internal v (colourSwap c) l.swapColour r.swapColour)
    | Leaf _ => none
  else if inner then
    match innerSwitcheroo t right with
    | some t1 => some (Insertion.Success, postSwap t1 right)
    | none => none
  else
    match outerSwitcheroo t right with
    | some t1 => some (Insertion.Success, postSwap t1 right)
    | none => none

/-- The `match res` block at the end of `Node::insert_op`, written as its
own step function on the node rebuilt after the recursive call. -/
def insert_result_step (t : Node α) :
    Insertion α → Bool → Bool → Option (Insertion α × Node α)
  | Insertion.InvalidLeft, right, recolour =>
      insert_switcheroo t right right recolour
  | Insertion.InvalidRight, right, recolour =>
      insert_switcheroo t right (!right) recolour
  | Insertion.Recoloured, right, _ =>
      match t with
      | Leaf _ => none
      | Internal v c l r =>
          if (Internal v c l r : Node α).is_red && (if right then r else l).is_red then
            some (if right then Insertion.InvalidRight else Insertion.InvalidLeft,
              Internal v c l r)
          else
            some (Insertion.Success, Internal v c l r)
  | Insertion.Inserted, right, _ =>
      if t.is_black then some (Insertion.Success, t)
      else
        some (if right then Insertion.InvalidRight else Insertion.InvalidLeft, t)
  | Insertion.Replaced w, _, _ => some (Insertion.Replaced w, t)
  | Insertion.Success, _, _ => some (Insertion.Success, t)

/-- `Node::insert_op`.  The comparator stands for the `PartialOrd` calls of
the source: `cmp v new_v = .eq` is `n.value == new_v`, `.gt` is
`n.value > new_v`, `.lt` the remaining branch.  On an equal key the stored
value and the probe are swapped (`m_swap(&mut n.value, &mut new_v)`). -/
def insert_op (cmp : α → α → Ordering) : Node α → α → Option (Insertion α × Node α)
  | Leaf _, new_v => some (Insertion.Inserted, new new_v)
  | Internal v c l r, new_v =>
      match cmp v new_v with
      | Ordering.eq =>
          insert_result_step (Internal new_v c l r) (Insertion.Replaced v) true true
      | Ordering.gt =>
          match insert_op cmp l new_v with
          | none => none
          | some (res, l') => insert_result_step (Internal v c l' r) res false r.is_red
      | Ordering.lt =>
          match insert_op cmp r new_v with
          | none => none
          | some (res, r') => insert_result_step (Internal v c l r') res true l.is_red

/-- `Node::insert`: the root-level wrapper, which forces a red root black
through `swap_colour` and turns the signal into the replaced value. -/
def insert (cmp : α → α → Ordering) (t : Node α) (new_v : α) :
    Option (Option α × Node α) :=
  match insert_op cmp t new_v with
  | none => none
  | some (res, t1) =>
      let t2 := if t1.is_red then t1.swapColour else t1
      some ((match res with | Insertion.Replaced v => some v | _ => none), t2)

/-- The recolouring tail of `deletion_switcheroo` after an inner or outer
rotation under a black sibling: restore the captured colour of the old local
root, then blacken `child(right)`, `child(!right).child(!right)` and
`child(!right)`.  A captured `DBlack` colour hits the
`panic!("Double black at local root")` arm, modelled as `none`. -/
def delRecolour : Node α → Colour → Bool → Option (Bool × Node α)
  | _, Colour.DBlack, _ => none
  | Internal v _ l r, col, true =>
      match l with
      | Internal lv _ ll lr =>
          some (false, Internal v col (Internal lv Colour.Black ll.setBlack lr) r.setBlack)
      | Leaf _ => none
  | Internal v _ l r, col, false =>
      match r with
      | Internal rv _ rl rr =>
          some (false, Internal v col l.setBlack (Internal rv Colour.Black rl rr.setBlack))
      | Leaf _ => none
  | Leaf _, _, _ => none

/-- `Node::deletion_switcheroo`, with explicit fuel for its non-structural
recursion in the red-sibling case.  Returns `true` iff the double black
propagates to the caller. -/
def deletion_switcheroo : Nat → Node α → Option (Bool × Node α)
  | 0, _ => none
  | _ + 1, Leaf _ => none
  | fuel + 1, Internal v c l r =>
      let right := !(is_double_black r)
      let sib := if right then r else l
      if sib.is_black then
        match sib with
        | Leaf _ => none
        | Internal _ _ sl sr =>
            let innerC := if right then sl else sr
            let outerC := if right then sr else sl
            if innerC.is_red then
              match innerSwitcheroo (Internal v c l r) right with
              | none => none
              | some t1 => delRecolour t1 c right
            else if outerC.is_red then
              match outerSwitcheroo (Internal v c l r) right with
              | none => none
              | some t1 => delRecolour t1 c right
            else
              let sib' := sib.setRed
              let def' := (if right then l else r).setBlack
              let t1 := if right then Internal v c def' sib'
                        else Internal v c sib' def'
              if c = Colour.Black then some (true, t1.setDBlack)
              else some (false, t1.setBlack)
      else
        match outerSwitcheroo (Internal v c l r) right with
        | none => none
        | some t1 =>
            match t1.setBlack, right with
            | Internal v2 c2 l2 r2, true =>
                match deletion_switcheroo fuel l2.setRed with
                | none => none
                | some (b, l3) =>
                    if b then deletion_switcheroo fuel (Internal v2 c2 l3 r2)
                    else some (false, Internal v2 c2 l3 r2)
            | Internal v2 c2 l2 r2, false =>
                match deletion_switcheroo fuel r2.setRed with
                | none => none
                | some (b, r3) =>
                    if b then deletion_switcheroo fuel (Internal v2 c2 l2 r3)
                    else some (false, Internal v2 c2 l2 r3)
            | Leaf _, _ => none

/-- The `while` walk of `swap_innermost_descendant`, started on the non-leaf
`child(right)` of the matched node: walk towards `child(!right)` until that
child is a leaf, then detach the node there, replacing it by its
`child(right)` subtree recoloured exactly as in the source.  Returns the
detached value, the doubling flag, and the rebuilt subtree. -/
def removeInnermost : Bool → Node α → Option (α × Bool × Node α)
  | _, Leaf _ => none
  | true, Internal v c l r =>
      if l.is_leaf then
        if c = Colour.Black then
          if r.is_red then some (v, false, r.swapColour)
          else some (v, true, r.setDBlack)
        else some (v, false, r)
      else
        match removeInnermost true l with
        | none => none
        | some (val, doubled, l') => some (val, doubled, Internal v c l' r)
  | false, Internal v c l r =>
      if r.is_leaf then
        if c = Colour.Black then
          if l.is_red then some (v, false, l.swapColour)
          else some (v, true, l.setDBlack)
        else some (v, false, l)
      else
        match removeInnermost false r with
        | none => none
        | some (val, doubled, r') => some (val, doubled, Internal v c l r')

/-- `Node::swap_innermost_descendant`: swap the matched node's value with its
in-order successor (or predecessor, or detach the node itself when both
children are leaves), and report whether a double black was introduced. -/
def swap_innermost_descendant : Node α → Option (α × Bool × Node α)
  | Leaf _ => none
  | Internal v c l r =>
      if !r.is_leaf then
        match removeInnermost true r with
        | none => none
        | some (iv, doubled, r') => some (v, doubled, Internal iv c l r')
      else if !l.is_leaf then
        match removeInnermost false l with
        | none => none
        | some (iv, doubled, l') => some (v, doubled, Internal iv c l' r)
      else
        if c = Colour.Black then some (v, true, Leaf Colour.DBlack)
        else some (v, false, Leaf Colour.Black)

/-- `Node::swap_doubles_up(right)`: search for a double-black node along the
`child(!right)` spine and fix it there; calling it on a leaf is the panic of
`child` on a leaf. -/
def swap_doubles_up (fuel : Nat) : Bool → Node α → Option (Bool × Node α)
  | _, Leaf _ => none
  | true, Internal v c l r =>
      if l.is_double_black then deletion_switcheroo fuel (Internal v c l r)
      else
        match swap_doubles_up fuel true l with
        | none => none
        | some (b, l') =>
            if b then deletion_switcheroo fuel (Internal v c l' r)
            else some (false, Internal v c l' r)
  | false, Internal v c l r =>
      if r.is_double_black then deletion_switcheroo fuel (Internal v c l r)
      else
        match swap_doubles_up fuel false r with
        | none => none
        | some (b, r') =>
            if b then deletion_switcheroo fuel (Internal v c l r')
            else some (false, Internal v c l r')

/-- `Node::remove_result_step(res, right)`, performed on the node rebuilt
after the recursive removal descended towards side `right`. -/
def remove_result_step (fuel : Nat) (t : Node α) :
    Removal α → Bool → Option (Removal α × Node α)
  | Removal.Match, _ =>
      match swap_innermost_descendant t with
      | none => none
      | some (ret, doubled, t') =>
          some (if doubled then Removal.Doubled ret else Removal.Removed ret, t')
  | Removal.Doubled n, right =>
      match t with
      | Leaf _ => none
      | Internal v c l r =>
          let ch := if right then r else l
          if ch.is_double_black then
            match deletion_switcheroo fuel (Internal v c l r) with
            | none => none
            | some (b, t') =>
                some (if b then Removal.Doubled n else Removal.Removed n, t')
          else
            match swap_doubles_up fuel right ch with
            | none => none
            | some (b, ch') =>
                let t2 := if right then Internal v c l ch' else Internal v c ch' r
                if b then
                  match deletion_switcheroo fuel t2 with
                  | none => none
                  | some (b2, t3) =>
                      some (if b2 then Removal.Doubled n else Removal.Removed n, t3)
                else some (Removal.Removed n, t2)
  | Removal.Removed n, _ => some (Removal.Removed n, t)
  | Removal.NotFound, _ => some (Removal.NotFound, t)

/-- `Node::remove_op`.  The probe comparator mirrors the `PartialOrd<T>`
calls with the probe on the left: `cmpk val v = .eq` is `*val == n.value`,
`.lt` is `*val < n.value`. -/
def remove_op (cmpk : κ → α → Ordering) (fuel : Nat) :
    Node α → κ → Option (Removal α × Node α)
  | Leaf c, _ => some (Removal.NotFound, Leaf c)
  | Internal v c l r, val =>
      match cmpk val v with
      | Ordering.eq => remove_result_step fuel (Internal v c l r) Removal.Match true
      | Ordering.lt =>
          match remove_op cmpk fuel l val with
          | none => none
          | some (res, l') => remove_result_step fuel (Internal v c l' r) res false
      | Ordering.gt =>
          match remove_op cmpk fuel r val with
          | none => none
          | some (res, r') => remove_result_step fuel (Internal v c l r') res true

/-- `Node::pop_op(back)`: descend along one spine to the node whose
corresponding child is a leaf and run `remove_result_step(Match, true)`
there.  Results of recursive calls are passed through unchanged — unlike
`remove_op`, no `remove_result_step` runs at the ancestors. -/
def pop_op (fuel : Nat) (back : Bool) : Node α → Option (Removal α × Node α)
  | Leaf c => some (Removal.NotFound, Leaf c)
  | Internal v c l r =>
      if back then
        if r.is_leaf then
          remove_result_step fuel (Internal v c l r) Removal.Match true
        else
          match pop_op fuel back r with
          | none => none
          | some (res, r') => some (res, Internal v c l r')
      else
        if l.is_leaf then
          remove_result_step fuel (Internal v c l r) Removal.Match true
        else
          match pop_op fuel back l with
          | none => none
          | some (res, l') => some (res, Internal v c l' r)

/-- `Node::remove`: the root-level wrapper.  A `Doubled` result swaps the
root's colour through `Node::swap_colour` (which leaves a leaf unchanged);
the remaining `Match` arm is the `tree structure damaged` panic. -/
def remove (cmpk : κ → α → Ordering) (t : Node α) (val : κ) :
    Option (Option α × Node α) :=
  match remove_op cmpk (t.size + 2) t val with
  | none => none
  | some (Removal.NotFound, t') => some (none, t')
  | some (Removal.Removed v, t') => some (some v, t')
  | some (Removal.Doubled v, t') => some (some v, t'.swapColour)
  | some (Removal.Match, _) => none

/-- `Node::pop`: the root-level wrapper around `pop_op`. -/
def pop (back : Bool) (t : Node α) : Option (Option α × Node α) :=
  match pop_op (t.size + 2) back t with
  | none => none
  | some (Removal.NotFound, t') => some (none, t')
  | some (Removal.Removed v, t') => some (some v, t')
  | some (Removal.Doubled v, t') => some (some v, t'.swapColour)
  | some (Removal.Match, _) => none

/-- `Node::get`: plain comparator-guided descent. -/
def get (cmpk : κ → α → Ordering) : Node α → κ → Option α
  | Leaf _, _ => none
  | Internal v _ l r, val =>
      match cmpk val v with
      | Ordering.eq => some v
      | Ordering.lt => get cmpk l val
      | Ordering.gt => get cmpk r val

/-- `Node::peek(back)`: descend to the extreme internal node, no change. -/
def peek (back : Bool) : Node α → Option α
  | Leaf _ => none
  | Internal v _ l r =>
      if back then
        if r.is_leaf then some v else peek back r
      else
        if l.is_leaf then some v else peek back l

/-- Check that every subtree value satisfies a boolean predicate. -/
def allB (p : α → Bool) : Node α → Bool
  | Leaf _ => true
  | Internal v _ l r => p v && allB p l && allB p r

/-- Invariant 2 of the spec: no red node has a red child.  `Red` is meant
literally here (a `DBlack` child does not count as red). -/
def noRedRed : Node α → Bool
  | Leaf _ => true
  | Internal _ c l r =>
      (!(c = Colour.Red) || (!(l.colour = Colour.Red) && !(r.colour = Colour.Red))) &&
        noRedRed l && noRedRed r

/-- Number of `Black` nodes on every path from the node down to a leaf,
the leaf included; `none` when two paths disagree.  A `DBlack` node does not
count as black. -/
def blackHeight : Node α → Option Nat
  | Leaf c => some (if c = Colour.Black then 1 else 0)
  | Internal _ c l r =>
      match blackHeight l, blackHeight r with
      | some bl, some br =>
          if bl = br then some (bl + (if c = Colour.Black then 1 else 0)) else none
      | _, _ => none

/-- Invariant 1 of the spec: strict comparator order between every internal
node and its subtrees. -/
def bstB (cmp : α → α → Ordering) : Node α → Bool
  | Leaf _ => true
  | Internal v _ l r =>
      allB (fun x => cmp x v == Ordering.lt) l &&
        allB (fun x => cmp x v == Ordering.gt) r &&
        bstB cmp l && bstB cmp r

/-- Invariant 4, first half: the root, if internal, is black. -/
def rootBlackOk : Node α → Bool
  | Internal _ c _ _ => c = Colour.Black
  | Leaf _ => true

/-- Invariant 4, second half: all leaf sentinels are black. -/
def leavesBlack : Node α → Bool
  | Leaf c => c = Colour.Black
  | Internal _ _ l r => leavesBlack l && leavesBlack r

/-- Does any node or leaf sentinel carry the transient `DBlack` colour? -/
def hasDBlack : Node α → Bool
  | Leaf c => c = Colour.DBlack
  | Internal _ c l r => c = Colour.DBlack || hasDBlack l || hasDBlack r

/-- All red-black invariants of the spec, as a decidable check. -/
def wfB (cmp : α → α → Ordering) (t : Node α) : Bool :=
  noRedRed t && (blackHeight t).isSome && bstB cmp t && rootBlackOk t && leavesBlack t

end Node

/-- The container of rbtree.rs: a root node plus a running element count. -/
structure RBTree (α : Type) where
  root : Node α
  contained : Nat
deriving DecidableEq, Repr

namespace RBTree

variable {α : Type} {κ : Type}

/-- `RBTree::new`. -/
def new : RBTree α := ⟨Node.Leaf Colour.Black, 0⟩

/-- `RBTree::len`. -/
def len (t : RBTree α) : Nat := t.contained

/-- `RBTree::ordered`, as a list of the contained values. -/
def ordered (t : RBTree α) : List α := t.root.inorder

/-- `RBTree::insert`: true iff the item was not already present. -/
def insert (cmp : α → α → Ordering) (t : RBTree α) (val : α) :
    Option (Bool × RBTree α) :=
  match Node.insert cmp t.root val with
  | none => none
  | some (some _, rt) => some (false, ⟨rt, t.contained⟩)
  | some (none, rt) => some (true, ⟨rt, t.contained + 1⟩)

/-- `RBTree::replace`: returns the previously contained item, if any. -/
def replace (cmp : α → α → Ordering) (t : RBTree α) (val : α) :
    Option (Option α × RBTree α) :=
  match Node.insert cmp t.root val with
  | none => none
  | some (some v, rt) => some (some v, ⟨rt, t.contained⟩)
  | some (none, rt) => some (none, ⟨rt, t.contained + 1⟩)

/-- `RBTree::take`: removes and returns the matching item; the count is
decremented exactly when something was returned. -/
def take (cmpk : κ → α → Ordering) (t : RBTree α) (val : κ) :
    Option (Option α × RBTree α) :=
  match Node.remove cmpk t.root val with
  | none => none
  | some (some v, rt) => some (some v, ⟨rt, t.contained - 1⟩)
  | some (none, rt) => some (none, ⟨rt, t.contained⟩)

/-- `RBTree::remove`: like `take` but only reports success. -/
def remove (cmpk : κ → α → Ordering) (t : RBTree α) (val : κ) :
    Option (Bool × RBTree α) :=
  match Node.remove cmpk t.root val with
  | none => none
  | some (some _, rt) => some (true, ⟨rt, t.contained - 1⟩)
  | some (none, rt) => some (false, ⟨rt, t.contained⟩)

/-- `RBTree::pop`: removes the front (minimum) item. -/
def pop (t : RBTree α) : Option (Option α × RBTree α) :=
  match Node.pop false t.root with
  | none => none
  | some (some v, rt) => some (some v, ⟨rt, t.contained - 1⟩)
  | some (none, rt) => some (none, ⟨rt, t.contained⟩)

/-- `RBTree::pop_back`: removes the back (maximum) item. -/
def pop_back (t : RBTree α) : Option (Option α × RBTree α) :=
  match Node.pop true t.root with
  | none => none
  | some (some v, rt) => some (some v, ⟨rt, t.contained - 1⟩)
  | some (none, rt) => some (none, ⟨rt, t.contained⟩)

/-- `RBTree::get`. -/
def get (cmpk : κ → α → Ordering) (t : RBTree α) (val : κ) : Option α :=
  Node.get cmpk t.root val

/-- `RBTree::peek` / `RBTree::peek_back`. -/
def peek (back : Bool) (t : RBTree α) : Option α := Node.peek back t.root

/-- Element count equals the number of internal nodes (invariant 5). -/
def lenOk (t : RBTree α) : Bool := t.contained = t.root.size

/-- All spec invariants at tree level. -/
def wfB (cmp : α → α → Ordering) (t : RBTree α) : Bool :=
  Node.wfB cmp t.root && t.lenOk

end RBTree

/-- Build a tree by inserting the listed values in order, propagating the
panic-freedom of each step. -/
def build (cmp : α → α → Ordering) (xs : List α) : Option (RBTree α) :=
  xs.foldl
    (fun acc x =>
      match acc with
      | none => none
      | some t =>
          match RBTree.insert cmp t x with
          | none => none
          | some (_, t') => some t')
    (some RBTree.new)

/-- A strict total comparator on naturals, standing for `PartialOrd` on the
numeric element types used by the repository's tests. -/
def natCmp (a b : Nat) : Ordering :=
  if a < b then Ordering.lt else if a = b then Ordering.eq else Ordering.gt

/-- The `t.root.get_right_mut().swap_colour()` step used by the source's own
insertion test (`test_case1_left`) to force the red-sibling setup the spec
scenario describes. -/
def swapRightColour : RBTree α → RBTree α
  | ⟨Node.Internal v c l r, n⟩ => ⟨Node.Internal v c l r.swapColour, n⟩
  | ⟨Node.Leaf c, n⟩ => ⟨Node.Leaf c, n⟩

/-- Repeatedly pop the front, recording each returned value together with the
count reported by `len()` after the pop. -/
def drainFront : Nat → RBTree α → List (Option α × Nat)
  | 0, _ => []
  | n + 1, t =>
      match RBTree.pop t with
      | none => []
      | some (v, t') => (v, t'.contained) :: drainFront n t'

/-- Repeatedly pop the back, recording values and counts. -/
def drainBack : Nat → RBTree α → List (Option α × Nat)
  | 0, _ => []
  | n + 1, t =>
      match RBTree.pop_back t with
      | none => []
      | some (v, t') => (v, t'.contained) :: drainBack n t'

/-- Substitution of the probe value at the first comparator-equal node along
the descent path, leaving everything else — shape, colours, and all other
values — untouched.  This is the "value substitution" the C6 claim allows;
`insert_op` is proved to coincide with it when the key is present. -/
def substOp (cmp : α → α → Ordering) : Node α → α → Node α
  | Node.Leaf c, _ => Node.Leaf c
  | Node.Internal v c l r, new_v =>
      match cmp v new_v with
      | Ordering.eq => Node.Internal new_v c l r
      | Ordering.gt => Node.Internal v c (substOp cmp l new_v) r
      | Ordering.lt => Node.Internal v c l (substOp cmp r new_v)

/-- A comparator on pairs that orders by the first component only: the
key/payload situation of the repository's `Mapper`, where `PartialOrd`
compares keys and the payload rides along. -/
def pairCmp (a b : Nat × Nat) : Ordering := natCmp a.1 b.1

/-- Draining the `Union` iterator of rbtree.rs: the state is the stored
`nextl`/`nextr` elements plus the remaining parts of both ordered sequences,
exactly as in `Union::next` (comparisons `vl < vr` and `vl == vr` are the
element type's `PartialOrd`/`PartialEq`; on a tie the left tree's copy is
yielded and both sides advance). -/
def unionDrain {β : Type} [LinearOrder β] :
    Option β → Option β → List β → List β → List β
  | some vl, some vr, ls, rs =>
      if vl < vr then vl :: unionDrain ls.head? (some vr) ls.tail rs
      else if vl = vr then vl :: unionDrain ls.head? rs.head? ls.tail rs.tail
      else vr :: unionDrain (some vl) rs.head? ls rs.tail
  | some vl, none, ls, rs => vl :: unionDrain ls.head? none ls.tail rs
  | none, some vr, ls, rs => vr :: unionDrain none rs.head? ls rs.tail
  | none, none, _, _ => []
termination_by nl nr ls rs =>
  (match nl with | some _ => 1 | none => 0) + ls.length +
    (match nr with | some _ => 1 | none => 0) + rs.length
decreasing_by
  all_goals cases ls <;> cases rs <;> simp <;> omega

/-- `RBTree::union`: the iterator is seeded with the first element of each
tree's ordered sequence and then drained. -/
def RBTree.union {β : Type} [LinearOrder β] (t1 t2 : RBTree β) : List β :=
  unionDrain t1.ordered.head? t2.ordered.head? t1.ordered.tail t2.ordered.tail

/-- Reattach a stored iterator element in front of the remaining list. -/
def ocons {β : Type} : Option β → List β → List β
  | some a, l => a :: l
  | none, l => l

/-- The textbook sorted merge keeping the left copy on ties; `unionDrain` is
proved to coincide with it on iterator states. -/
def mergeSpec {β : Type} [LinearOrder β] : List β → List β → List β
  | [], ys => ys
  | x :: xs, [] => x :: xs
  | x :: xs, y :: ys =>
      if x < y then x :: mergeSpec xs (y :: ys)
      else if x = y then x :: mergeSpec xs ys
      else y :: mergeSpec (x :: xs) ys
termination_by xs ys => xs.length + ys.length
decreasing_by all_goals simp <;> omega

end RB

namespace RB

namespace Node

variable {α : Type} {κ : Type}

/-- A key the comparator-guided `get` cannot find is returned untouched by
`remove_op` as `NotFound` — the two functions take identical branches. -/
theorem remove_op_of_get_none (cmpk : κ → α → Ordering) (fuel : Nat) :
    ∀ (t : Node α) (val : κ), get cmpk t val = none →
      remove_op cmpk fuel t val = some (Removal.NotFound, t)
  | Leaf _, _, _ => rfl
  | Internal v c l r, val, h => by
      simp only [get] at h
      simp only [remove_op]
      cases hc : cmpk val v with
      | lt =>
          simp only [hc] at h ⊢
          rw [remove_op_of_get_none cmpk fuel l val h]
          rfl
      | eq => simp [hc] at h
      | gt =>
          simp only [hc] at h ⊢
          rw [remove_op_of_get_none cmpk fuel r val h]
          rfl

/-- Whatever `remove_result_step` returns: it is never `Match`, it is
`NotFound` exactly when its input signal was, and on `NotFound` the node is
returned unchanged. -/
theorem remove_result_step_shape (fuel : Nat) (t : Node α) (res : Removal α)
    (right : Bool) (res' : Removal α) (t' : Node α)
    (h : remove_result_step fuel t res right = some (res', t')) :
    res' ≠ Removal.Match ∧ (res' = Removal.NotFound ↔ res = Removal.NotFound) ∧
      (res = Removal.NotFound → t' = t) := by
  cases res with
  | Match =>
      simp only [remove_result_step] at h
      cases hs : swap_innermost_descendant t with
      | none => rw [hs] at h; cases h
      | some x =>
          obtain ⟨ret, d, t2⟩ := x
          rw [hs] at h
          cases d <;> cases h <;> simp
  | Doubled n =>
      cases t with
      | Leaf c => simp only [remove_result_step] at h; cases h
      | Internal v c l r =>
          simp only [remove_result_step] at h
          repeat' split at h
          all_goals cases h
          all_goals simp
  | Removed n =>
      simp only [remove_result_step] at h
      cases h
      simp
  | NotFound =>
      simp only [remove_result_step] at h
      cases h
      simp

/-- Shape of `remove_op`'s results: never `Match`, `NotFound` exactly when
`get` misses, and on a miss the tree comes back unchanged. -/
theorem remove_op_shape (cmpk : κ → α → Ordering) (fuel : Nat) :
    ∀ (t : Node α) (val : κ) (res : Removal α) (t' : Node α),
      remove_op cmpk fuel t val = some (res, t') →
      res ≠ Removal.Match ∧ (res = Removal.NotFound ↔ get cmpk t val = none) ∧
        (res = Removal.NotFound → t' = t)
  | Leaf c, val, res, t', h => by
      simp only [remove_op] at h
      cases h
      simp [get]
  | Internal v c l r, val, res, t', h => by
      simp only [remove_op] at h
      simp only [get]
      cases hc : cmpk val v with
      | eq =>
          simp only [hc] at h ⊢
          obtain ⟨h1, h2, h3⟩ := remove_result_step_shape fuel _ _ _ _ _ h
          refine ⟨h1, ?_, ?_⟩
          · simp only [h2]; simp
          · intro hnf; exact absurd (h2.mp hnf) (by simp)
      | lt =>
          simp only [hc] at h ⊢
          cases hrec : remove_op cmpk fuel l val with
          | none => rw [hrec] at h; cases h
          | some p =>
              obtain ⟨resl, l'⟩ := p
              rw [hrec] at h
              obtain ⟨h1, h2, h3⟩ := remove_result_step_shape fuel _ _ _ _ _ h
              obtain ⟨g1, g2, g3⟩ := remove_op_shape cmpk fuel l val resl l' hrec
              refine ⟨h1, by rw [h2, g2], ?_⟩
              intro hnf
              have hl : resl = Removal.NotFound := h2.mp hnf
              have hfix : t' = Node.Internal v c l' r := h3 hl
              have : l' = l := g3 hl
              subst this
              exact hfix
      | gt =>
          simp only [hc] at h ⊢
          cases hrec : remove_op cmpk fuel r val with
          | none => rw [hrec] at h; cases h
          | some p =>
              obtain ⟨resr, r'⟩ := p
              rw [hrec] at h
              obtain ⟨h1, h2, h3⟩ := remove_result_step_shape fuel _ _ _ _ _ h
              obtain ⟨g1, g2, g3⟩ := remove_op_shape cmpk fuel r val resr r' hrec
              refine ⟨h1, by rw [h2, g2], ?_⟩
              intro hnf
              have hr : resr = Removal.NotFound := h2.mp hnf
              have hfix : t' = Node.Internal v c l r' := h3 hr
              have : r' = r := g3 hr
              subst this
              exact hfix

@[simp] theorem inorder_swapColour (t : Node α) : t.swapColour.inorder = t.inorder := by
  cases t <;> rfl

@[simp] theorem inorder_setDBlack (t : Node α) : t.setDBlack.inorder = t.inorder := by
  cases t <;> rfl

theorem inorder_of_is_leaf {t : Node α} (h : t.is_leaf = true) : t.inorder = [] := by
  cases t with
  | Internal v c l r => simp [is_leaf] at h
  | Leaf c => rfl

/-- `removeInnermost true` on a non-leaf subtree detaches exactly the head
of its in-order sequence. -/
theorem removeInnermost_front : ∀ (t : Node α), t.is_leaf = false →
    ∃ x d t', removeInnermost true t = some (x, d, t') ∧ x :: t'.inorder = t.inorder
  | Internal v c l r, _ => by
      by_cases hl : l.is_leaf = true
      · have hnil : l.inorder = [] := inorder_of_is_leaf hl
        by_cases hc : c = Colour.Black
        · by_cases hr : r.is_red = true
          · exact ⟨v, false, r.swapColour, by simp [removeInnermost, hl, hc, hr],
              by simp [inorder, hnil]⟩
          · exact ⟨v, true, r.setDBlack, by simp [removeInnermost, hl, hc, hr],
              by simp [inorder, hnil]⟩
        · exact ⟨v, false, r, by simp [removeInnermost, hl, hc],
            by simp [inorder, hnil]⟩
      · have hlf : l.is_leaf = false := by simpa using hl
        obtain ⟨x, d, l', hrec, hino⟩ := removeInnermost_front l hlf
        refine ⟨x, d, Internal v c l' r, ?_, ?_⟩
        · simp [removeInnermost, hlf, hrec]
        · simp [inorder, ← hino]

/-- `removeInnermost false` on a non-leaf subtree detaches exactly the last
element of its in-order sequence. -/
theorem removeInnermost_back : ∀ (t : Node α), t.is_leaf = false →
    ∃ x d t', removeInnermost false t = some (x, d, t') ∧ t'.inorder ++ [x] = t.inorder
  | Internal v c l r, _ => by
      by_cases hr : r.is_leaf = true
      · have hnil : r.inorder = [] := inorder_of_is_leaf hr
        by_cases hc : c = Colour.Black
        · by_cases hl : l.is_red = true
          · exact ⟨v, false, l.swapColour, by simp [removeInnermost, hr, hc, hl],
              by simp [inorder, hnil]⟩
          · exact ⟨v, true, l.setDBlack, by simp [removeInnermost, hr, hc, hl],
              by simp [inorder, hnil]⟩
        · exact ⟨v, false, l, by simp [removeInnermost, hr, hc],
            by simp [inorder, hnil]⟩
      · have hrf : r.is_leaf = false := by simpa using hr
        obtain ⟨x, d, r', hrec, hino⟩ := removeInnermost_back r hrf
        refine ⟨x, d, Internal v c l r', ?_, ?_⟩
        · simp [removeInnermost, hrf, hrec]
        · simp [inorder, ← hino]

/-- `swap_innermost_descendant` always succeeds on an internal node,
returns that node's value, and its in-order effect is exactly the deletion
of that value. -/
theorem swap_innermost_spec (v : α) (c : Colour) (l r : Node α) :
    ∃ d t', swap_innermost_descendant (Internal v c l r) = some (v, d, t') ∧
      t'.inorder = l.inorder ++ r.inorder := by
  by_cases hr : r.is_leaf = true
  · by_cases hl : l.is_leaf = true
    · have hrn : r.inorder = [] := inorder_of_is_leaf hr
      have hln : l.inorder = [] := inorder_of_is_leaf hl
      by_cases hc : c = Colour.Black
      · exact ⟨true, Leaf Colour.DBlack,
          by simp [swap_innermost_descendant, hr, hl, hc], by simp [inorder, hrn, hln]⟩
      · exact ⟨false, Leaf Colour.Black,
          by simp [swap_innermost_descendant, hr, hl, hc], by simp [inorder, hrn, hln]⟩
    · have hlf : l.is_leaf = false := by simpa using hl
      have hrn : r.inorder = [] := inorder_of_is_leaf hr
      obtain ⟨x, d, l', hrec, hino⟩ := removeInnermost_back l hlf
      refine ⟨d, Internal x c l' r, ?_, ?_⟩
      · simp [swap_innermost_descendant, hr, hlf, hrec]
      · simp [inorder, hrn, ← hino]
  · have hrf : r.is_leaf = false := by simpa using hr
    obtain ⟨x, d, r', hrec, hino⟩ := removeInnermost_front r hrf
    refine ⟨d, Internal x c l r', ?_, ?_⟩
    · simp [swap_innermost_descendant, hrf, hrec]
    · simp [inorder, ← hino]

/-- `pop_op false` descends to the leftmost internal node and removes the
head of the in-order sequence, signalling `Removed` or `Doubled`. -/
theorem pop_op_front (fuel : Nat) : ∀ (t : Node α), t.is_leaf = false →
    ∃ (x : α) (d : Bool) (t' : Node α),
      pop_op fuel false t =
        some ((if d then Removal.Doubled x else Removal.Removed x), t') ∧
      x :: t'.inorder = t.inorder
  | Internal v c l r, _ => by
      by_cases hl : l.is_leaf = true
      · obtain ⟨d, t', hsw, hino⟩ := swap_innermost_spec v c l r
        refine ⟨v, d, t', ?_, ?_⟩
        · simp [pop_op, hl, remove_result_step, hsw]
        · simp [inorder, hino, inorder_of_is_leaf hl]
      · have hlf : l.is_leaf = false := by simpa using hl
        obtain ⟨x, d, l', hrec, hino⟩ := pop_op_front fuel l hlf
        refine ⟨x, d, Internal v c l' r, ?_, ?_⟩
        · simp [pop_op, hlf, hrec]
        · simp [inorder, ← hino]

/-- `pop_op true` removes the last element of the in-order sequence. -/
theorem pop_op_back (fuel : Nat) : ∀ (t : Node α), t.is_leaf = false →
    ∃ (x : α) (d : Bool) (t' : Node α),
      pop_op fuel true t =
        some ((if d then Removal.Doubled x else Removal.Removed x), t') ∧
      t'.inorder ++ [x] = t.inorder
  | Internal v c l r, _ => by
      by_cases hr : r.is_leaf = true
      · obtain ⟨d, t', hsw, hino⟩ := swap_innermost_spec v c l r
        refine ⟨v, d, t', ?_, ?_⟩
        · simp [pop_op, hr, remove_result_step, hsw]
        · simp [inorder, hino, inorder_of_is_leaf hr]
      · have hrf : r.is_leaf = false := by simpa using hr
        obtain ⟨x, d, r', hrec, hino⟩ := pop_op_back fuel r hrf
        refine ⟨x, d, Internal v c l r', ?_, ?_⟩
        · simp [pop_op, hrf, hrec]
        · simp [inorder, ← hino]

/-- `Node::pop(false)` returns the head of the in-order sequence and leaves
its tail, on every tree. -/
theorem pop_front_inorder (t : Node α) :
    (Node.pop false t).map (fun p => (p.1, p.2.inorder)) =
      some (t.inorder.head?, t.inorder.tail) := by
  cases t with
  | Leaf c => rfl
  | Internal v c l r =>
      obtain ⟨x, d, t', hop, hino⟩ :=
        pop_op_front ((Internal v c l r : Node α).size + 2) (Internal v c l r) rfl
      simp only [Node.pop, hop]
      cases d <;> simp [← hino]

/-- `Node::pop(true)` returns the last element of the in-order sequence and
leaves the rest, on every tree. -/
theorem pop_back_inorder (t : Node α) :
    (Node.pop true t).map (fun p => (p.1, p.2.inorder)) =
      some (t.inorder.getLast?, t.inorder.dropLast) := by
  cases t with
  | Leaf c => rfl
  | Internal v c l r =>
      obtain ⟨x, d, t', hop, hino⟩ :=
        pop_op_back ((Internal v c l r : Node α).size + 2) (Internal v c l r) rfl
      simp only [Node.pop, hop]
      cases d <;> simp [← hino]

end Node

/-- C1: the claim asserts that every sequence of public operations preserves
the red-black invariants.  The code refutes it: `pop_op` passes recursive
results up without running `remove_result_step` at the ancestors, so the
deletion fixup never runs above the removed node.  Inserting 5, 7, 9, 2, 1, 4
and popping once returns `Some(1)` but leaves a tree whose root is a red
internal node with a red child, with a `DBlack` sentinel still present and
with unequal black counts on its root-to-leaf paths. -/
theorem c1_pop_breaks_invariants :
    ((build natCmp [5, 7, 9, 2, 1, 4]).bind RBTree.pop).map
        (fun p => (p.1, Node.noRedRed p.2.root, Node.rootBlackOk p.2.root,
          (Node.blackHeight p.2.root).isSome, Node.hasDBlack p.2.root)) =
      some (some 1, false, false, false, true) := by
  decide

/-- C2: the claim asserts `DoubleBlack` never survives a public call; the
source even comments "leaves always black".  But `Node::swap_colour` leaves a
`Leaf` unchanged, so removing the single element of a one-element tree
returns the value while leaving the root sentinel `Leaf(DBlack)`. -/
theorem c2_double_black_persists :
    ((build natCmp [5]).bind (fun t => RBTree.take natCmp t 5)).map
        (fun p => (p.1, p.2.root)) =
      some (some 5, Node.Leaf Colour.DBlack) := by
  decide

/-- C3: building from 65, 50, 80, 10, 60, 62, 70, 90, 92 and removing 92,
90, 80, 70 in sequence keeps every red-black invariant (no red-red, equal
black height, comparator order, `len` equal to the node count) after each
removal, and the final in-order sequence is 10, 50, 60, 62, 65. -/
theorem c3_deletion_scenario_invariants :
    ((build natCmp [65, 50, 80, 10, 60, 62, 70, 90, 92]).bind (fun t0 =>
      (RBTree.take natCmp t0 92).bind (fun p1 =>
        (RBTree.take natCmp p1.2 90).bind (fun p2 =>
          (RBTree.take natCmp p2.2 80).bind (fun p3 =>
            (RBTree.take natCmp p3.2 70).map (fun p4 =>
              (RBTree.wfB natCmp p1.2, RBTree.wfB natCmp p2.2,
                RBTree.wfB natCmp p3.2, RBTree.wfB natCmp p4.2,
                RBTree.ordered p4.2))))))) =
      some (true, true, true, true, [10, 50, 60, 62, 65]) := by
  decide

/-- C4 counterexample: inserting 2, 3, 1, 0 in that order alone does not
make 1 the root.  The fourth insertion finds a red uncle and merely
recolours, so the root stays 2 (as the source's own `test_case3_at_root`
asserts). -/
theorem c4_insert_2310_root_is_not_1 :
    ¬ ((build natCmp [2, 3, 1, 0]).map (fun t => t.root.value?) =
        some (some 1)) := by
  decide

/-- C4 amended: with the forced red-sibling setup of the source's
`test_case1_left` (insert 2, 3, 1, then swap the colour of the root's right
child, then insert 0), the rotation rebalances to root 1 black, left child
0 red, right child 2 red, and 2's right child 3 black. -/
theorem c4_forced_red_sibling_rotation :
    ((build natCmp [2, 3, 1]).map swapRightColour).bind
        (fun t => (RBTree.insert natCmp t 0).map (fun p => p.2.root)) =
      some (Node.Internal 1 Colour.Black
        (Node.Internal 0 Colour.Red (Node.Leaf Colour.Black) (Node.Leaf Colour.Black))
        (Node.Internal 2 Colour.Red (Node.Leaf Colour.Black)
          (Node.Internal 3 Colour.Black (Node.Leaf Colour.Black)
            (Node.Leaf Colour.Black)))) := by
  decide

/-- C5: the claim asserts insert-then-take restores the previous state with
all invariants intact.  On the empty tree this fails: inserting 0 and taking
it back returns 0 and restores the empty ordered sequence, but the root
sentinel is left `Leaf(DBlack)`, breaking the all-leaves-black invariant
(same root cause as the C2 slip in `Node::swap_colour`). -/
theorem c5_roundtrip_leaves_double_black :
    ((RBTree.insert natCmp RBTree.new 0).bind
        (fun p => RBTree.take natCmp p.2 0)).map
        (fun p => (p.1, RBTree.ordered p.2, p.2.root, Node.leavesBlack p.2.root)) =
      some (some 0, ([] : List Nat), Node.Leaf Colour.DBlack, false) := by
  decide

/-- `substOp` never changes the shape or any colour. -/
theorem substOp_paint (cmp : α → α → Ordering) :
    ∀ (t : Node α) (v : α), (substOp cmp t v).paint = t.paint
  | Node.Leaf _, _ => rfl
  | Node.Internal x c l r, v => by
      simp only [substOp]
      cases hc : cmp x v with
      | eq => rfl
      | gt => simp [Node.paint, substOp_paint cmp l v]
      | lt => simp [Node.paint, substOp_paint cmp r v]

/-- `substOp` keeps the redness of the root. -/
theorem substOp_is_red (cmp : α → α → Ordering) :
    ∀ (t : Node α) (v : α), (substOp cmp t v).is_red = t.is_red
  | Node.Leaf _, _ => rfl
  | Node.Internal x c l r, v => by
      simp only [substOp]
      cases hc : cmp x v <;> rfl

/-- On a tree that contains a comparator-equal key, `insert_op` reports
`Replaced` with the stored value and performs exactly the value
substitution, along the very same descent as `get`. -/
theorem insert_op_replace (cmp : α → α → Ordering)
    (hsymm : ∀ a b, (cmp a b).swap = cmp b a) :
    ∀ (t : Node α) (v w : α), Node.get cmp t v = some w →
      Node.insert_op cmp t v = some (Insertion.Replaced w, substOp cmp t v)
  | Node.Leaf _, v, w, h => by simp [Node.get] at h
  | Node.Internal x c l r, v, w, h => by
      simp only [Node.get] at h
      simp only [Node.insert_op, substOp]
      cases hc : cmp v x with
      | eq =>
          rw [hc] at h
          cases h
          have hx : cmp x v = Ordering.eq := by
            have hs := hsymm v x
            rw [hc] at hs
            simpa using hs.symm
          simp only [hx]
          rfl
      | lt =>
          rw [hc] at h
          have hx : cmp x v = Ordering.gt := by
            have hs := hsymm v x
            rw [hc] at hs
            simpa using hs.symm
          simp only [hx]
          rw [insert_op_replace cmp hsymm l v w h]
          rfl
      | gt =>
          rw [hc] at h
          have hx : cmp x v = Ordering.lt := by
            have hs := hsymm v x
            rw [hc] at hs
            simpa using hs.symm
          simp only [hx]
          rw [insert_op_replace cmp hsymm r v w h]
          rfl

/-- Root-level `Node::insert` on a present key: the old value comes back and
the tree is the pure value substitution (the root-blackening step does not
fire because the root was not red). -/
theorem insert_replace (cmp : α → α → Ordering)
    (hsymm : ∀ a b, (cmp a b).swap = cmp b a) (t : Node α) (v w : α)
    (hget : Node.get cmp t v = some w) (hroot : t.is_red = false) :
    Node.insert cmp t v = some (some w, substOp cmp t v) := by
  have h := insert_op_replace cmp hsymm t v w hget
  simp only [Node.insert, h]
  have hred : (substOp cmp t v).is_red = false := by
    rw [substOp_is_red]
    exact hroot
  simp [hred]

/-- `natCmp` is oriented. -/
theorem natCmp_swap (a b : Nat) : (natCmp a b).swap = natCmp b a := by
  unfold natCmp
  rcases Nat.lt_trichotomy a b with h | h | h
  · simp [h, Nat.lt_asymm h, Nat.ne_of_lt h, (Nat.ne_of_lt h).symm, Ordering.swap]
  · subst h
    simp [Ordering.swap]
  · simp [h, Nat.lt_asymm h, Nat.ne_of_lt h, (Nat.ne_of_lt h).symm, Ordering.swap]

/-- `pairCmp` is oriented. -/
theorem pairCmp_swap (a b : Nat × Nat) : (pairCmp a b).swap = pairCmp b a :=
  natCmp_swap a.1 b.1

theorem ocons_head_tail {β : Type} (l : List β) : ocons l.head? l.tail = l := by
  cases l <;> rfl

theorem mergeSpec_nil_right {β : Type} [LinearOrder β] (xs : List β) :
    mergeSpec xs [] = xs := by
  cases xs with
  | nil => rw [mergeSpec]
  | cons x xs => rw [mergeSpec]

/-- On iterator states whose stored element is only missing when the rest of
that side is exhausted, draining the `Union` iterator is the sorted merge. -/
theorem unionDrain_eq_mergeSpec {β : Type} [LinearOrder β] :
    ∀ (nl nr : Option β) (ls rs : List β),
      (nl = none → ls = []) → (nr = none → rs = []) →
      unionDrain nl nr ls rs = mergeSpec (ocons nl ls) (ocons nr rs) := by
  intro nl nr ls rs
  induction nl, nr, ls, rs using unionDrain.induct with
  | case1 vl vr ls rs hlt ih =>
      intro _ _
      have h1 : ls.head? = none → ls.tail = [] := by cases ls <;> simp
      rw [unionDrain, if_pos hlt]
      show _ = mergeSpec (vl :: ls) (vr :: rs)
      rw [mergeSpec, if_pos hlt]
      rw [ih h1 (by simp), ocons_head_tail]
      rfl
  | case2 vr ls rs hnlt ih =>
      intro _ _
      have h1 : ls.head? = none → ls.tail = [] := by cases ls <;> simp
      have h2 : rs.head? = none → rs.tail = [] := by cases rs <;> simp
      rw [unionDrain, if_neg hnlt, if_pos rfl]
      show _ = mergeSpec (vr :: ls) (vr :: rs)
      rw [mergeSpec, if_neg hnlt, if_pos rfl]
      rw [ih h1 h2, ocons_head_tail, ocons_head_tail]
  | case3 vl vr ls rs hnlt hne ih =>
      intro _ _
      have h2 : rs.head? = none → rs.tail = [] := by cases rs <;> simp
      rw [unionDrain, if_neg hnlt, if_neg hne]
      show _ = mergeSpec (vl :: ls) (vr :: rs)
      rw [mergeSpec, if_neg hnlt, if_neg hne]
      rw [ih (by simp) h2, ocons_head_tail]
      rfl
  | case4 vl ls rs ih =>
      intro _ hr
      have hrs : rs = [] := hr rfl
      subst hrs
      have h1 : ls.head? = none → ls.tail = [] := by cases ls <;> simp
      rw [unionDrain]
      show _ = mergeSpec (vl :: ls) (ocons none [])
      rw [ih h1 (fun _ => rfl), ocons_head_tail]
      show vl :: mergeSpec ls (ocons none []) = _
      rw [show ocons (none : Option β) [] = [] from rfl]
      rw [mergeSpec_nil_right, mergeSpec_nil_right]
  | case5 vr ls rs ih =>
      intro hl _
      have hls : ls = [] := hl rfl
      subst hls
      have h2 : rs.head? = none → rs.tail = [] := by cases rs <;> simp
      rw [unionDrain]
      rw [ih (fun _ => rfl) h2]
      show vr :: mergeSpec (ocons none []) (ocons rs.head? rs.tail) = _
      rw [ocons_head_tail]
      show vr :: mergeSpec [] rs = mergeSpec [] (vr :: rs)
      rw [mergeSpec, mergeSpec]
  | case6 ls rs =>
      intro hl hr
      have hls : ls = [] := hl rfl
      have hrs : rs = [] := hr rfl
      subst hls
      subst hrs
      rw [unionDrain]
      show ([] : List β) = mergeSpec [] []
      rw [mergeSpec]

/-- Membership in the sorted merge is membership in either input. -/
theorem mergeSpec_mem {β : Type} [LinearOrder β] :
    ∀ (xs ys : List β) (a : β), a ∈ mergeSpec xs ys ↔ a ∈ xs ∨ a ∈ ys := by
  intro xs ys
  induction xs, ys using mergeSpec.induct with
  | case1 ys => intro a; simp [mergeSpec]
  | case2 x xs => intro a; simp [mergeSpec]
  | case3 x xs y ys hlt ih =>
      intro a
      rw [mergeSpec, if_pos hlt]
      simp only [List.mem_cons, ih]
      tauto
  | case4 xs y ys hnlt ih =>
      intro a
      rw [mergeSpec, if_neg hnlt, if_pos rfl]
      simp only [List.mem_cons, ih]
      tauto
  | case5 x xs y ys hnlt hne ih =>
      intro a
      rw [mergeSpec, if_neg hnlt, if_neg hne]
      simp only [List.mem_cons, ih]
      tauto

/-- The sorted merge of two strictly ascending lists is strictly
ascending. -/
theorem mergeSpec_sorted {β : Type} [LinearOrder β] :
    ∀ (xs ys : List β), xs.Pairwise (· < ·) → ys.Pairwise (· < ·) →
      (mergeSpec xs ys).Pairwise (· < ·) := by
  intro xs ys
  induction xs, ys using mergeSpec.induct with
  | case1 ys => intro _ hy; simpa [mergeSpec] using hy
  | case2 x xs => intro hx _; simpa [mergeSpec] using hx
  | case3 x xs y ys hlt ih =>
      intro hx hy
      rw [mergeSpec, if_pos hlt]
      rw [List.pairwise_cons] at hx ⊢
      refine ⟨?_, ih hx.2 hy⟩
      intro b hb
      rcases (mergeSpec_mem xs (y :: ys) b).mp hb with hbx | hby
      · exact hx.1 b hbx
      · rcases List.mem_cons.mp hby with hbe | hbm
        · exact hbe ▸ hlt
        · exact lt_trans hlt ((List.pairwise_cons.mp hy).1 b hbm)
  | case4 xs y ys hnlt ih =>
      intro hx hy
      rw [mergeSpec, if_neg hnlt, if_pos rfl]
      rw [List.pairwise_cons] at hx hy ⊢
      refine ⟨?_, ih hx.2 hy.2⟩
      intro b hb
      rcases (mergeSpec_mem xs ys b).mp hb with hbx | hby
      · exact hx.1 b hbx
      · exact hy.1 b hby
  | case5 x xs y ys hnlt hne ih =>
      intro hx hy
      rw [mergeSpec, if_neg hnlt, if_neg hne]
      have hyx : y < x := by
        rcases lt_trichotomy x y with h | h | h
        · exact absurd h hnlt
        · exact absurd h hne
        · exact h
      rw [List.pairwise_cons] at hy ⊢
      refine ⟨?_, ih hx hy.2⟩
      intro b hb
      rcases (mergeSpec_mem (x :: xs) ys b).mp hb with hbx | hby
      · rcases List.mem_cons.mp hbx with hbe | hbm
        · exact hbe ▸ hyx
        · exact lt_trans hyx ((List.pairwise_cons.mp hx).1 b hbm)
      · exact hy.1 b hby

/-- C10: draining the `Union` iterator of two trees is the sorted merge of
their ordered sequences: the result is strictly ascending (hence without
duplicates, with an element present in both trees yielded once — the left
tree's copy by the `vl == vr` arm of `Union::next`) and its members are
exactly the elements of at least one of the trees. -/
theorem c10_union_sorted_merge :
    ∀ (β : Type) [_inst : LinearOrder β] (t1 t2 : RBTree β),
      t1.ordered.Pairwise (· < ·) → t2.ordered.Pairwise (· < ·) →
      (RBTree.union t1 t2).Pairwise (· < ·) ∧
        ∀ a, a ∈ RBTree.union t1 t2 ↔ a ∈ t1.ordered ∨ a ∈ t2.ordered := by
  intro β _inst t1 t2 h1 h2
  have gen : ∀ (l : List β), l.head? = none → l.tail = [] := by
    intro l
    cases l <;> simp
  have he : RBTree.union t1 t2 = mergeSpec t1.ordered t2.ordered := by
    unfold RBTree.union
    rw [unionDrain_eq_mergeSpec _ _ _ _ (gen _) (gen _), ocons_head_tail,
      ocons_head_tail]
  rw [he]
  exact ⟨mergeSpec_sorted _ _ h1 h2, fun a => mergeSpec_mem _ _ a⟩

/-- C10 witness: the union of the trees over {0, 1, 2} and {2, 3, 4} is
strictly ascending, and 2 (present in both) belongs to it. -/
theorem c10_witness :
    (RBTree.union ((build natCmp [0, 1, 2]).getD RBTree.new)
          ((build natCmp [2, 3, 4]).getD RBTree.new)).Pairwise (· < ·) ∧
      (2 ∈ RBTree.union ((build natCmp [0, 1, 2]).getD RBTree.new)
            ((build natCmp [2, 3, 4]).getD RBTree.new) ↔
        2 ∈ ((build natCmp [0, 1, 2]).getD RBTree.new).ordered ∨
          2 ∈ ((build natCmp [2, 3, 4]).getD RBTree.new).ordered) :=
  ⟨(c10_union_sorted_merge Nat _ _ (by decide) (by decide)).1,
    (c10_union_sorted_merge Nat _ _ (by decide) (by decide)).2 2⟩

/-- C6: replacing a present key swaps out and returns the stored value,
`len()` is unchanged, and the tree is exactly the value substitution
(`substOp`): no rotation and no recolouring at all, so the shape/colour
erasure (`paint`) is untouched.  The comparator is any oriented comparison
(`(cmp a b).swap = cmp b a`), and the root is required non-red as every
invariant-respecting tree guarantees. -/
theorem c6_replace_swaps_value_only :
    ∀ (α : Type) (cmp : α → α → Ordering) (T : RBTree α) (v w : α),
      (∀ a b, (cmp a b).swap = cmp b a) →
      RBTree.get cmp T v = some w →
      T.root.is_red = false →
      RBTree.replace cmp T v =
          some (some w, ⟨substOp cmp T.root v, T.contained⟩) ∧
        (substOp cmp T.root v).paint = T.root.paint := by
  intro α cmp T v w hsymm hget hroot
  have h := insert_replace cmp hsymm T.root v w hget hroot
  constructor
  · simp only [RBTree.replace, h]
  · exact substOp_paint cmp T.root v

/-- C6 witness: replacing key 1 (payload 99) in the key-ordered pair tree
holding (1, 10) and (2, 20) returns the old pair (1, 10) and performs the
pure value substitution. -/
theorem c6_witness :
    RBTree.replace pairCmp ((build pairCmp [(2, 20), (1, 10)]).getD RBTree.new)
        (1, 99) =
      some (some (1, 10),
        ⟨substOp pairCmp
            ((build pairCmp [(2, 20), (1, 10)]).getD RBTree.new).root (1, 99),
          ((build pairCmp [(2, 20), (1, 10)]).getD RBTree.new).contained⟩) :=
  (c6_replace_swaps_value_only (Nat × Nat) pairCmp _ (1, 99) (1, 10)
      (fun a b => pairCmp_swap a b) (by decide) (by decide)).1

/-- C7: pop always removes and returns the first element of the ordered
sequence (the minimum) and pop_back the last (the maximum), on every tree;
and on the tree populated with 5, 2, 7, 6 repeated front pops yield
2, 5, 6, 7 and repeated back pops 7, 6, 5, 2, with `len()` decremented by
one at each successful pop until the tree is empty and pops return `None`. -/
theorem c7_pop_front_back_order :
    (∀ (α : Type) (T : RBTree α),
        (RBTree.pop T).map (fun p => (p.1, RBTree.ordered p.2, p.2.contained)) =
          some ((RBTree.ordered T).head?, (RBTree.ordered T).tail,
            if (RBTree.ordered T).head?.isSome then T.contained - 1
            else T.contained)) ∧
      (∀ (α : Type) (T : RBTree α),
        (RBTree.pop_back T).map (fun p => (p.1, RBTree.ordered p.2, p.2.contained)) =
          some ((RBTree.ordered T).getLast?, (RBTree.ordered T).dropLast,
            if (RBTree.ordered T).getLast?.isSome then T.contained - 1
            else T.contained)) ∧
      (build natCmp [5, 2, 7, 6]).map (drainFront 5) =
        some [(some 2, 3), (some 5, 2), (some 6, 1), (some 7, 0), (none, 0)] ∧
      (build natCmp [5, 2, 7, 6]).map (drainBack 5) =
        some [(some 7, 3), (some 6, 2), (some 5, 1), (some 2, 0), (none, 0)] := by
  refine ⟨?_, ?_, by decide, by decide⟩
  · intro α T
    have h := Node.pop_front_inorder T.root
    simp only [RBTree.pop, RBTree.ordered]
    cases hp : Node.pop false T.root with
    | none => rw [hp] at h; cases h
    | some p =>
        obtain ⟨ov, rt⟩ := p
        rw [hp] at h
        simp only [Option.map_some', Option.some.injEq, Prod.mk.injEq] at h
        obtain ⟨h1, h2⟩ := h
        cases ov with
        | some v => simp only [← h1, ← h2]; simp
        | none => simp only [← h1, ← h2]; simp
  · intro α T
    have h := Node.pop_back_inorder T.root
    simp only [RBTree.pop_back, RBTree.ordered]
    cases hp : Node.pop true T.root with
    | none => rw [hp] at h; cases h
    | some p =>
        obtain ⟨ov, rt⟩ := p
        rw [hp] at h
        simp only [Option.map_some', Option.some.injEq, Prod.mk.injEq] at h
        obtain ⟨h1, h2⟩ := h
        cases ov with
        | some v => simp only [← h1, ← h2]; simp
        | none => simp only [← h1, ← h2]; simp

/-- C8: absence of a key is never an error.  If `get` misses, `take` returns
`None` and `remove` returns `false` with the tree (and its count) unchanged;
`pop`/`pop_back` on an empty tree return `None` and change nothing; and
whenever `take` returns, the result is present exactly when `get` finds the
key, with the count decremented exactly on success. -/
theorem c8_missing_key_not_error :
    (∀ (α κ : Type) (cmpk : κ → α → Ordering) (T : RBTree α) (k : κ),
        RBTree.get cmpk T k = none →
          RBTree.take cmpk T k = some (none, T) ∧
            RBTree.remove cmpk T k = some (false, T)) ∧
      (∀ (α : Type) (c : Colour) (n : Nat),
        RBTree.pop (⟨Node.Leaf c, n⟩ : RBTree α) = some (none, ⟨Node.Leaf c, n⟩) ∧
          RBTree.pop_back (⟨Node.Leaf c, n⟩ : RBTree α) =
            some (none, ⟨Node.Leaf c, n⟩)) ∧
      (∀ (α κ : Type) (cmpk : κ → α → Ordering) (T : RBTree α) (k : κ)
          (r : Option α) (T' : RBTree α),
        RBTree.take cmpk T k = some (r, T') →
          r.isSome = (RBTree.get cmpk T k).isSome ∧
            T'.contained = (if r.isSome then T.contained - 1 else T.contained) ∧
            (r = none → T' = T)) := by
  refine ⟨?_, ?_, ?_⟩
  · intro α κ cmpk T k h
    have h0 : Node.remove cmpk T.root k = some (none, T.root) := by
      unfold Node.remove
      rw [Node.remove_op_of_get_none cmpk (T.root.size + 2) T.root k h]
    constructor
    · simp only [RBTree.take, h0]
    · simp only [RBTree.remove, h0]
  · intro α c n
    exact ⟨rfl, rfl⟩
  · intro α κ cmpk T k r T' h
    simp only [RBTree.take, Node.remove] at h
    cases hop : Node.remove_op cmpk (T.root.size + 2) T.root k with
    | none => rw [hop] at h; cases h
    | some q =>
        obtain ⟨res, t0⟩ := q
        rw [hop] at h
        obtain ⟨s1, s2, s3⟩ := Node.remove_op_shape cmpk _ T.root k res t0 hop
        cases res with
        | Match => exact absurd rfl s1
        | NotFound =>
            cases h
            have hget : Node.get cmpk T.root k = none := s2.mp rfl
            have ht0 : t0 = T.root := s3 rfl
            subst ht0
            refine ⟨by simp [RBTree.get, hget], by simp, ?_⟩
            intro _
            cases T
            rfl
        | Removed v =>
            cases h
            have hget : Node.get cmpk T.root k ≠ none := fun hg => by
              have := s2.mpr hg
              cases this
            refine ⟨?_, by simp, by intro hh; cases hh⟩
            simp only [RBTree.get, Option.isSome_some]
            cases hg : Node.get cmpk T.root k with
            | none => exact absurd hg hget
            | some w => rfl
        | Doubled v =>
            cases h
            have hget : Node.get cmpk T.root k ≠ none := fun hg => by
              have := s2.mpr hg
              cases this
            refine ⟨?_, by simp, by intro hh; cases hh⟩
            simp only [RBTree.get, Option.isSome_some]
            cases hg : Node.get cmpk T.root k with
            | none => exact absurd hg hget
            | some w => rfl

/-- C8 witness: taking the absent key 99 from the tree built over
{20, 30, 10, 12} returns `none` and leaves the tree untouched. -/
theorem c8_witness :
    RBTree.take natCmp ((build natCmp [20, 30, 10, 12]).getD RBTree.new) 99 =
      some (none, (build natCmp [20, 30, 10, 12]).getD RBTree.new) :=
  (c8_missing_key_not_error.1 Nat Nat natCmp _ 99 (by decide)).1

/-- C9: the claim asserts no public operation can reach an internal panic on
a well-formed tree.  The code refutes it: after building the tree from
10, 5, 30, 20, 40, 35 and removing 35, the tree satisfies every red-black
invariant, yet `remove(&30)` ends in a panic — the matched node has two
internal children and a black successor, so a `Doubled` result is produced
while `swap_doubles_up` walks the wrong spine (`child(!right)` repeatedly)
and finally calls itself on a leaf, hitting
`panic!("Attempted to get child of leaf")` (modelled by `none`). -/
theorem c9_remove_reaches_panic :
    ((build natCmp [10, 5, 30, 20, 40, 35]).bind (fun t =>
      (RBTree.take natCmp t 35).map (fun p =>
        (RBTree.wfB natCmp p.2, RBTree.take natCmp p.2 30)))) =
      some (true, none) := by
  decide

end RB
